import Mathlib

/-!
Shallow embedding of the rich text editing engine of
crates/gpui/src/app/components/rich_text.rs.

The buffer is modelled as a list of characters; all positions are UTF-8
byte offsets, as in the source.  String operations that can panic in Rust
(slicing or inserting at an out-of-bounds or non-character-boundary byte
offset, `String::insert_str`, `String::replace_range`) are modelled as
Option-valued primitives returning `none` exactly when the Rust code would
panic.  Events emitted through `cx.emit` are collected in a list.
-/

/-- Total number of UTF-8 bytes of a character list (Rust `str::len`). -/
def utf8Len (s : List Char) : Nat := (s.map Char.utf8Size).sum

/-- Number of UTF-16 code units of a character (Rust `char::len_utf16`). -/
def utf16Size (c : Char) : Nat := if c.toNat ≥ 0x10000 then 2 else 1

/-- Split a character list at byte offset `n`; `none` when `n` is not a
character boundary or exceeds the total byte length (where Rust slicing
would panic). -/
def splitBytes? : List Char → Nat → Option (List Char × List Char)
  | s, 0 => some ([], s)
  | [], _ + 1 => none
  | c :: cs, n + 1 =>
    if c.utf8Size ≤ n + 1 then
      (splitBytes? cs (n + 1 - c.utf8Size)).map (fun p => (c :: p.1, p.2))
    else
      none

/-- Prefix of `s` occupying exactly `n` bytes (Rust `&s[..n]`). -/
def takeBytes? (s : List Char) (n : Nat) : Option (List Char) :=
  (splitBytes? s n).map Prod.fst

/-- Suffix of `s` after the first `n` bytes (Rust `&s[n..]`). -/
def dropBytes? (s : List Char) (n : Nat) : Option (List Char) :=
  (splitBytes? s n).map Prod.snd

/-- Concatenation `s[..a] + t + s[b..]` used by the replace operations;
`none` iff either slice would panic. -/
def concat3? (s : List Char) (a b : Nat) (t : List Char) : Option (List Char) := do
  let pre ← takeBytes? s a
  let post ← dropBytes? s b
  some (pre ++ t ++ post)

/-- Model of `String::replace_range(a..b, t)` and, with `a = b`, of
`String::insert_str(a, t)`: panics (none) when `a > b` or either offset is
invalid. -/
def splice? (s : List Char) (a b : Nat) (t : List Char) : Option (List Char) :=
  if a ≤ b then concat3? s a b t else none

/-- Text formatting style (source enum `RichTextStyle`). -/
inductive RichTextStyle where
  | bold
  | italic
  | underline
  | strikethrough
  | code
deriving DecidableEq

/-- Sort key modelling the source ordering of styles by their Debug
strings, `format!("{:?}", style)`: alphabetically Bold < Code < Italic <
Strikethrough < Underline. -/
def styleKey : RichTextStyle → Nat
  | .bold => 0
  | .code => 1
  | .italic => 2
  | .strikethrough => 3
  | .underline => 4

/-- A span of styled text (source struct `TextSpan`). -/
structure TextSpan where
  start : Nat
  «end» : Nat
  style : RichTextStyle
deriving DecidableEq

/-- Source `TextSpan::contains(start, end)`. -/
def TextSpan.containsRange (sp : TextSpan) (a b : Nat) : Prop :=
  sp.start ≤ a ∧ sp.«end» ≥ b

instance (sp : TextSpan) (a b : Nat) : Decidable (sp.containsRange a b) := by
  unfold TextSpan.containsRange; infer_instance

/-- Selection in the text (source struct `Selection`); `start` is the
anchor and `end` the head. -/
structure Selection where
  start : Nat
  «end» : Nat
deriving DecidableEq

/-- Source `Selection::cursor(pos)`. -/
def Selection.cursor (pos : Nat) : Selection := ⟨pos, pos⟩

/-- Source `Selection::is_empty`. -/
def Selection.isEmpty (s : Selection) : Prop := s.start = s.«end»

instance (s : Selection) : Decidable s.isEmpty := by
  unfold Selection.isEmpty; infer_instance

/-- Source `Selection::normalized`, the ordered pair (min, max). -/
def Selection.normalized (s : Selection) : Nat × Nat :=
  if s.start ≤ s.«end» then (s.start, s.«end») else (s.«end», s.start)

/-- Source `Selection::head`. -/
def Selection.head (s : Selection) : Nat := s.«end»

/-- Events emitted by the engine (source enum `RichTextEvent`; the Change
payload is the full new content). -/
inductive RichTextEvent where
  | Change (content : List Char)
  | Focus
  | Blur
  | Enter
  | Tab
  | Backspace
  | Delete
  | Space
  | Slash
deriving DecidableEq

/-- The engine state: the fields of source struct `RichTextState` that the
editing logic reads or writes (rendering-only fields such as the blink
cursor, bounds and focus handle are omitted; they never influence the
buffer, spans, selection, history or marked range). -/
structure RichTextState where
  content : List Char
  spans : List TextSpan
  selection : Selection
  history : List (List Char × List TextSpan × Selection)
  history_index : Nat
  marked_range : Option (Nat × Nat)
deriving DecidableEq

/-- Source `RichTextState::new`: empty content, caret 0, one initial
history entry. -/
def initState : RichTextState :=
  { content := [],
    spans := [],
    selection := ⟨0, 0⟩,
    history := [([], [], ⟨0, 0⟩)],
    history_index := 0,
    marked_range := none }

/-- Source `push_history`: truncate redo entries when not at the tip,
append the current snapshot, evict the oldest entry over capacity 100.
The source computes `history.len() - 1` in usize; the history list is
never empty in any reachable state, so Nat truncated subtraction agrees
with the source there. -/
def pushHistory (st : RichTextState) : RichTextState :=
  let hist :=
    if st.history_index < st.history.length - 1 then
      st.history.take (st.history_index + 1)
    else
      st.history
  let hist := hist ++ [(st.content, st.spans, st.selection)]
  let idx := hist.length - 1
  if hist.length > 100 then
    { st with history := hist.drop 1, history_index := idx - 1 }
  else
    { st with history := hist, history_index := idx }

/-- Source `undo`: step the history cursor back and restore the snapshot;
silent no-op at the oldest entry.  `none` models the (unreachable)
out-of-range indexing panic. -/
def undo (st : RichTextState) : Option (RichTextState × List RichTextEvent) :=
  if st.history_index > 0 then
    match st.history.get? (st.history_index - 1) with
    | some (c, sp, sel) =>
      some ({ st with
                history_index := st.history_index - 1,
                content := c, spans := sp, selection := sel },
            [RichTextEvent.Change c])
    | none => none
  else
    some (st, [])

/-- Source `redo`: step the history cursor forward and restore the
snapshot; silent no-op at the newest entry. -/
def redo (st : RichTextState) : Option (RichTextState × List RichTextEvent) :=
  if st.history_index < st.history.length - 1 then
    match st.history.get? (st.history_index + 1) with
    | some (c, sp, sel) =>
      some ({ st with
                history_index := st.history_index + 1,
                content := c, spans := sp, selection := sel },
            [RichTextEvent.Change c])
    | none => none
  else
    some (st, [])

/-- Per-span adjustment performed by the `retain_mut` closure in source
`delete_range(start, end)`; `none` means the span is removed. -/
def adjustSpanDelete (a b : Nat) (sp : TextSpan) : Option TextSpan :=
  if sp.«end» ≤ a then
    some sp
  else if sp.start ≥ b then
    some ⟨sp.start - (b - a), sp.«end» - (b - a), sp.style⟩
  else if sp.start ≥ a ∧ sp.«end» ≤ b then
    none
  else if sp.start < a ∧ sp.«end» > b then
    some ⟨sp.start, sp.«end» - (b - a), sp.style⟩
  else if sp.start < a then
    if sp.start < a then some ⟨sp.start, a, sp.style⟩ else none
  else
    if a < sp.«end» - (b - a) then some ⟨a, sp.«end» - (b - a), sp.style⟩ else none

/-- Source `delete_range(start, end)`: removes `content[start..end]` and
adjusts every span. -/
def deleteRange (st : RichTextState) (a b : Nat) : Option RichTextState :=
  (splice? st.content a b []).map fun content =>
    { st with content := content,
              spans := st.spans.filterMap (adjustSpanDelete a b) }

/-- Per-span adjustment in source `insert_text`: right-shift spans starting
at or after the insertion point, right-extend spans whose interior
contains it. -/
def adjustSpanInsert (a n : Nat) (sp : TextSpan) : TextSpan :=
  if sp.start ≥ a then
    { sp with start := sp.start + n, «end» := sp.«end» + n }
  else if sp.«end» > a then
    { sp with «end» := sp.«end» + n }
  else
    sp

/-- Source `insert_text`: delete a non-empty selection, insert at the
resulting caret, adjust spans, move the caret, push history, emit Change. -/
def insertText (st : RichTextState) (text : List Char) :
    Option (RichTextState × List RichTextEvent) := do
  let (a, b) := st.selection.normalized
  let st ← if a ≠ b then deleteRange st a b else some st
  let content ← splice? st.content a a text
  let n := utf8Len text
  let st := pushHistory
    { st with content := content,
              spans := st.spans.map (adjustSpanInsert a n),
              selection := Selection.cursor (a + n) }
  some (st, [RichTextEvent.Change st.content])

/-- Byte index of the last character of `content[..pos]`, or 0 when that
prefix is empty: source `content[..start].char_indices().last()` with
`unwrap_or(0)`.  `none` when slicing at `pos` would panic. -/
def prevCharStart? (content : List Char) (pos : Nat) : Option Nat :=
  (takeBytes? content pos).map fun pre =>
    utf8Len pre - ((pre.getLast?).map Char.utf8Size).getD 0

/-- Byte offset after the first character of `content[pos..]` when that
suffix has at least two characters, else the total length: source
`content[start..].char_indices().nth(1)` with `unwrap_or(len)`. -/
def nextCharEnd? (content : List Char) (pos : Nat) : Option Nat :=
  (dropBytes? content pos).map fun rest =>
    match rest with
    | [] => utf8Len content
    | [_] => utf8Len content
    | c :: _ :: _ => pos + c.utf8Size

/-- Source `backspace`: delete the selection, or the character before the
caret; unconditionally pushes history and emits Change and Backspace. -/
def backspace (st : RichTextState) : Option (RichTextState × List RichTextEvent) := do
  let (a, b) := st.selection.normalized
  let st ←
    if a ≠ b then
      (deleteRange st a b).map fun st => { st with selection := Selection.cursor a }
    else if a > 0 then do
      let prevPos ← prevCharStart? st.content a
      let st ← deleteRange st prevPos a
      some { st with selection := Selection.cursor prevPos }
    else
      some st
  let st := pushHistory st
  some (st, [RichTextEvent.Change st.content, RichTextEvent.Backspace])

/-- Source `delete` (delete-forward): delete the selection, or the
character after the caret; unconditionally pushes history and emits Change
and Delete. -/
def deleteForward (st : RichTextState) : Option (RichTextState × List RichTextEvent) := do
  let (a, b) := st.selection.normalized
  let st ←
    if a ≠ b then
      (deleteRange st a b).map fun st => { st with selection := Selection.cursor a }
    else if a < utf8Len st.content then do
      let nextPos ← nextCharEnd? st.content a
      deleteRange st a nextPos
    else
      some st
  let st := pushHistory st
  some (st, [RichTextEvent.Change st.content, RichTextEvent.Delete])

/-- Source `move_left`: step the head one character left when possible,
else collapse a non-empty selection to its normalized minimum. -/
def moveLeft (st : RichTextState) (extendSelection : Bool) : Option RichTextState :=
  let pos := st.selection.head
  if pos > 0 then
    (prevCharStart? st.content pos).map fun newPos =>
      if extendSelection then
        { st with selection := { st.selection with «end» := newPos } }
      else
        { st with selection := Selection.cursor newPos }
  else if ¬extendSelection ∧ ¬st.selection.isEmpty then
    some { st with selection := Selection.cursor st.selection.normalized.1 }
  else
    some st

/-- Source `move_right`: step the head one character right when possible,
else collapse a non-empty selection to its normalized maximum. -/
def moveRight (st : RichTextState) (extendSelection : Bool) : Option RichTextState :=
  let pos := st.selection.head
  if pos < utf8Len st.content then
    (nextCharEnd? st.content pos).map fun newPos =>
      if extendSelection then
        { st with selection := { st.selection with «end» := newPos } }
      else
        { st with selection := Selection.cursor newPos }
  else if ¬extendSelection ∧ ¬st.selection.isEmpty then
    some { st with selection := Selection.cursor st.selection.normalized.2 }
  else
    some st

/-- Source `move_to_start`. -/
def moveToStart (st : RichTextState) : RichTextState :=
  { st with selection := Selection.cursor 0 }

/-- Source `move_to_end`. -/
def moveToEnd (st : RichTextState) : RichTextState :=
  { st with selection := Selection.cursor (utf8Len st.content) }

/-- Source `select_all`. -/
def selectAll (st : RichTextState) : RichTextState :=
  { st with selection := ⟨0, utf8Len st.content⟩ }

/-- Source `set_content`: replace the buffer, reset the caret to the end,
clear spans, push history; emits no Change event. -/
def setContent (st : RichTextState) (content : List Char) : RichTextState :=
  pushHistory
    { st with content := content,
              selection := Selection.cursor (utf8Len content),
              spans := [] }

/-- Source `set_selection`: direct unvalidated assignment. -/
def setSelection (st : RichTextState) (sel : Selection) : RichTextState :=
  { st with selection := sel }

/-- Source `cut`: copy (whose slice panics on an invalid selection), then
delete the selection, push history and emit Change; no-op on an empty
selection. -/
def cut (st : RichTextState) : Option (RichTextState × List RichTextEvent) :=
  let (a, b) := st.selection.normalized
  if a = b then
    some (st, [])
  else do
    let _ ← splice? st.content a b []
    let st ← deleteRange st a b
    let st := pushHistory { st with selection := Selection.cursor a }
    some (st, [RichTextEvent.Change st.content])

/-- Source `unmark_text`. -/
def unmark (st : RichTextState) : RichTextState :=
  { st with marked_range := none }

/-- Interval subtraction of `[a, b)` from the spans of one style: source
`remove_style`. -/
def removeStyle (spans : List TextSpan) (a b : Nat) (style : RichTextStyle) :
    List TextSpan :=
  match spans with
  | [] => []
  | sp :: rest =>
    if sp.style ≠ style then
      sp :: removeStyle rest a b style
    else if sp.«end» ≤ a ∨ sp.start ≥ b then
      sp :: removeStyle rest a b style
    else if sp.start ≥ a ∧ sp.«end» ≤ b then
      removeStyle rest a b style
    else if sp.start < a ∧ sp.«end» > b then
      ⟨sp.start, a, style⟩ :: ⟨b, sp.«end», style⟩ :: removeStyle rest a b style
    else if sp.start < a then
      ⟨sp.start, a, style⟩ :: removeStyle rest a b style
    else
      ⟨b, sp.«end», style⟩ :: removeStyle rest a b style

/-- Comparator of source `merge_spans`: by start position, then by the
Debug string of the style; `spanLe x y` iff the comparison is not
Greater. -/
def spanLe (x y : TextSpan) : Bool :=
  x.start < y.start || (x.start == y.start && styleKey x.style ≤ styleKey y.style)

/-- Stable insertion of a span into an already sorted list: the new span
goes after every existing span that is less than or equal to it. -/
def insertSorted (sp : TextSpan) : List TextSpan → List TextSpan
  | [] => [sp]
  | x :: xs => if spanLe x sp then x :: insertSorted sp xs else sp :: x :: xs

/-- Stable sort by `spanLe`.  A stable sort is uniquely determined by its
comparator (a total preorder here), so this insertion sort computes the
same list as the source's stable `sort_by`. -/
def sortSpans (spans : List TextSpan) : List TextSpan :=
  spans.foldl (fun acc sp => insertSorted sp acc) []

/-- Merge loop of source `merge_spans`: the accumulator holds the merged
output in reverse; a span merges into the previous one exactly when the
styles are equal and the previous end reaches its start. -/
def mergeAux : List TextSpan → List TextSpan → List TextSpan
  | acc, [] => acc.reverse
  | [], sp :: rest => mergeAux [sp] rest
  | last :: accRest, sp :: rest =>
    if last.style = sp.style ∧ last.«end» ≥ sp.start then
      mergeAux ({ last with «end» := max last.«end» sp.«end» } :: accRest) rest
    else
      mergeAux (sp :: last :: accRest) rest

/-- Source `merge_spans`: sort all spans, then merge overlapping or
touching consecutive spans of the same style. -/
def mergeSpans (spans : List TextSpan) : List TextSpan :=
  mergeAux [] (sortSpans spans)

/-- Source `apply_style`: no-op on an empty selection; removes the style
when one existing span of that style contains the whole normalized range,
else adds a span and merges; always pushes history, never emits Change. -/
def applyStyle (st : RichTextState) (style : RichTextStyle) : RichTextState :=
  let (a, b) := st.selection.normalized
  if a = b then
    st
  else
    let hasStyle := st.spans.any fun s =>
      s.style == style && decide (s.containsRange a b)
    let st :=
      if hasStyle then
        { st with spans := removeStyle st.spans a b style }
      else
        { st with spans := mergeSpans (st.spans ++ [⟨a, b, style⟩]) }
    pushHistory st

/-- Scan of source `range_from_utf16`: starting at byte position `i` with
accumulated UTF-16 count `count`, advance until the count reaches
`target`; returns the byte position, the updated count, and the unscanned
suffix. -/
def scanUtf16 : List Char → Nat → Nat → Nat → Nat × Nat × List Char
  | [], _, i, count => (i, count, [])
  | c :: cs, target, i, count =>
    if count ≥ target then
      (i, count, c :: cs)
    else
      let count2 := count + utf16Size c
      if count2 ≥ target then
        (i + c.utf8Size, count2, cs)
      else
        scanUtf16 cs target (i + c.utf8Size) count2

/-- Source `range_from_utf16`: convert a UTF-16 code-unit range into a
UTF-8 byte range of `content`, clamping at the end of the text. -/
def rangeFromUtf16 (content : List Char) (s16 e16 : Nat) : Nat × Nat :=
  let (u8s, count, rest) := scanUtf16 content s16 0 0
  let (u8e, _, _) := scanUtf16 rest e16 u8s count
  (u8s, u8e)

/-- Range resolution shared by the two replace operations: an explicitly
given UTF-16 range converted to bytes, else the marked range, else the
normalized selection. -/
def resolveRange (st : RichTextState) (range16 : Option (Nat × Nat)) : Nat × Nat :=
  match range16 with
  | some r => rangeFromUtf16 st.content r.1 r.2
  | none =>
    match st.marked_range with
    | some m => m
    | none => st.selection.normalized

/-- Source `replace_text_in_range`: replace the resolved range, place the
caret after the inserted text, clear the marked range, emit Change. -/
def replaceTextInRange (st : RichTextState) (range16 : Option (Nat × Nat))
    (newText : List Char) : Option (RichTextState × List RichTextEvent) := do
  let range := resolveRange st range16
  let content ← concat3? st.content range.1 range.2 newText
  let newCursor := range.1 + utf8Len newText
  some ({ st with
            content := content,
            selection := Selection.cursor newCursor,
            marked_range := none },
        [RichTextEvent.Change content])

/-- Source `replace_and_mark_text_in_range`: replace the resolved range,
record the marked range over the inserted text (cleared when the text is
empty), and set the selection from the supplied UTF-16 range converted
against the new content and offset by the replacement start, else to a
caret after the inserted text; emit Change. -/
def replaceAndMarkTextInRange (st : RichTextState) (range16 : Option (Nat × Nat))
    (newText : List Char) (newSel16 : Option (Nat × Nat)) :
    Option (RichTextState × List RichTextEvent) := do
  let range := resolveRange st range16
  let content ← concat3? st.content range.1 range.2 newText
  let marked := if newText = [] then none else some (range.1, range.1 + utf8Len newText)
  let newCursor :=
    match newSel16 with
    | some r16 =>
      let nr := rangeFromUtf16 content r16.1 r16.2
      (nr.1 + range.1, nr.2 + range.1)
    | none =>
      let pos := range.1 + utf8Len newText
      (pos, pos)
  some ({ st with
            content := content,
            marked_range := marked,
            selection := ⟨newCursor.1, newCursor.2⟩ },
        [RichTextEvent.Change content])

/-- A byte position `p` is covered by a span of the given style. -/
def coveredBy (style : RichTextStyle) (p : Nat) (spans : List TextSpan) : Prop :=
  ∃ sp ∈ spans, sp.style = style ∧ sp.start ≤ p ∧ p < sp.«end»

instance (style : RichTextStyle) (p : Nat) (spans : List TextSpan) :
    Decidable (coveredBy style p spans) := by
  unfold coveredBy; infer_instance

/-- Consecutive spans of the same style are strictly disjoint (the merge
postcondition). -/
def consecOk : List TextSpan → Prop
  | [] => True
  | [_] => True
  | x :: y :: rest => (x.style = y.style → x.«end» < y.start) ∧ consecOk (y :: rest)

/-! Core lemmas about the byte-offset primitives and history. -/

/-- Characterization of a successful byte split: the two parts concatenate
to the input and the prefix occupies exactly the requested bytes. -/
theorem splitBytes?_eq_some : ∀ (s : List Char) (n : Nat) (p q : List Char),
    splitBytes? s n = some (p, q) → s = p ++ q ∧ utf8Len p = n := by
  intro s
  induction s with
  | nil =>
    intro n p q h
    cases n with
    | zero =>
      simp [splitBytes?] at h
      simp [h.1, h.2, utf8Len]
    | succ m => simp [splitBytes?] at h
  | cons c cs ih =>
    intro n p q h
    cases n with
    | zero =>
      simp [splitBytes?] at h
      simp [h.1, h.2, utf8Len]
    | succ m =>
      simp only [splitBytes?] at h
      split at h
      · rename_i hle
        rcases Option.map_eq_some'.mp h with ⟨⟨p', q'⟩, hsplit, heq⟩
        have heq' : (c :: p', q') = (p, q) := heq
        injection heq' with he1 he2
        subst he1
        subst he2
        obtain ⟨h1, h2⟩ := ih _ _ _ hsplit
        constructor
        · simp [h1]
        · simp [utf8Len] at h2 ⊢
          omega
      · exact absurd h (by simp)

/-- Splitting a concatenation at the byte length of its left part succeeds
and returns the two parts. -/
theorem splitBytes?_append : ∀ (p q : List Char),
    splitBytes? (p ++ q) (utf8Len p) = some (p, q) := by
  intro p
  induction p with
  | nil =>
    intro q
    simp [utf8Len, splitBytes?]
  | cons c p' ih =>
    intro q
    have hsz : 1 ≤ c.utf8Size := Nat.one_le_iff_ne_zero.mpr (by
      have := c.utf8Size_pos
      omega)
    obtain ⟨m, hm⟩ : ∃ m, utf8Len (c :: p') = m + 1 := by
      refine ⟨utf8Len (c :: p') - 1, ?_⟩
      simp [utf8Len] at *
      omega
    rw [hm]
    have hlen : utf8Len (c :: p') = c.utf8Size + utf8Len p' := by
      simp [utf8Len]
    simp only [List.cons_append, splitBytes?]
    have hle : c.utf8Size ≤ m + 1 := by omega
    rw [if_pos hle]
    have heq : m + 1 - c.utf8Size = utf8Len p' := by omega
    simp only [List.append_eq, heq, ih q]
    rfl

/-- takeBytes? of a concatenation at the left part's byte length. -/
theorem takeBytes?_append (p q : List Char) :
    takeBytes? (p ++ q) (utf8Len p) = some p := by
  simp [takeBytes?, splitBytes?_append]

/-- dropBytes? of a concatenation at the left part's byte length. -/
theorem dropBytes?_append (p q : List Char) :
    dropBytes? (p ++ q) (utf8Len p) = some q := by
  simp [dropBytes?, splitBytes?_append]

/-- A successful takeBytes? determines a decomposition of the input. -/
theorem takeBytes?_eq_some {s : List Char} {n : Nat} {p : List Char}
    (h : takeBytes? s n = some p) :
    utf8Len p = n ∧ ∃ q, s = p ++ q ∧ dropBytes? s n = some q := by
  rcases Option.map_eq_some'.mp h with ⟨⟨p', q'⟩, hsplit, heq⟩
  cases heq
  obtain ⟨h1, h2⟩ := splitBytes?_eq_some _ _ _ _ hsplit
  exact ⟨h2, q', h1, by simp [dropBytes?, hsplit]⟩

/-- A successful dropBytes? determines a decomposition of the input. -/
theorem dropBytes?_eq_some {s : List Char} {n : Nat} {q : List Char}
    (h : dropBytes? s n = some q) :
    ∃ p, s = p ++ q ∧ utf8Len p = n ∧ takeBytes? s n = some p := by
  rcases Option.map_eq_some'.mp h with ⟨⟨p', q'⟩, hsplit, heq⟩
  cases heq
  obtain ⟨h1, h2⟩ := splitBytes?_eq_some _ _ _ _ hsplit
  exact ⟨p', h1, h2, by simp [takeBytes?, hsplit]⟩

/-- pushHistory changes only the history fields. -/
theorem pushHistory_content (st : RichTextState) :
    (pushHistory st).content = st.content := by
  simp only [pushHistory]
  split <;> split <;> rfl

theorem pushHistory_spans (st : RichTextState) :
    (pushHistory st).spans = st.spans := by
  simp only [pushHistory]
  split <;> split <;> rfl

theorem pushHistory_selection (st : RichTextState) :
    (pushHistory st).selection = st.selection := by
  simp only [pushHistory]
  split <;> split <;> rfl

theorem pushHistory_marked (st : RichTextState) :
    (pushHistory st).marked_range = st.marked_range := by
  simp only [pushHistory]
  split <;> split <;> rfl

/-- Dropping the head of a concatenation with a nonempty left part. -/
theorem drop_one_append_singleton {α : Type} (l : List α) (x : α) (hl : l ≠ []) :
    (l ++ [x]).drop 1 = l.drop 1 ++ [x] := by
  cases l with
  | nil => exact absurd rfl hl
  | cons a as => simp

/-- pushHistory appends the current snapshot as the last history entry. -/
theorem pushHistory_appends (st : RichTextState) :
    ∃ base, (pushHistory st).history =
      base ++ [(st.content, st.spans, st.selection)] := by
  simp only [pushHistory]
  split
  · split
    · rename_i hc hlong
      refine ⟨(st.history.take (st.history_index + 1)).drop 1, ?_⟩
      simp only
      refine drop_one_append_singleton _ _ ?_
      intro hnil
      rw [hnil] at hlong
      simp at hlong
    · exact ⟨_, rfl⟩
  · split
    · rename_i hc hlong
      refine ⟨st.history.drop 1, ?_⟩
      simp only
      refine drop_one_append_singleton _ _ ?_
      intro hnil
      rw [hnil] at hlong
      simp at hlong
    · exact ⟨_, rfl⟩

/-- The normalized selection is an ordered pair. -/
theorem Selection.normalized_le (s : Selection) :
    (s.normalized).1 ≤ (s.normalized).2 := by
  simp only [Selection.normalized]
  split <;> simp <;> omega

/-! Shared concrete states used by several claims. -/

/-- The reachable state with content "ab" and caret at 2, obtained by a
single insert_text from the initial state. -/
def stAB : RichTextState :=
  ((insertText initState ("ab".data)).map Prod.fst).getD initState

/-- The C3 scenario state: content "hello" with one bold span over all of
it. -/
def helloSpanState : RichTextState :=
  { initState with content := "hello".data,
                   spans := [⟨0, 5, RichTextStyle.bold⟩],
                   selection := ⟨5, 5⟩ }

/-! Claim C2. -/

/-- Claim C2 counterexample: on the initial state (empty content, caret at
0) backspace leaves content, spans and selection unchanged but still
pushes a history entry (length 1 becomes 2) and emits Change and
Backspace, contradicting the claim that nothing is pushed and nothing is
emitted. -/
theorem C2_counterexample :
    (backspace initState).map
        (fun p => (p.1.content, p.1.spans, p.1.selection, p.1.history.length, p.2)) =
      some ([], [], ⟨0, 0⟩, 2,
        [RichTextEvent.Change [], RichTextEvent.Backspace]) := by
  decide

/-- Claim C2 (amended): with an empty selection at position 0, backspace
leaves content, spans and selection unchanged, but it still pushes a
history snapshot and still emits Change and Backspace. -/
theorem C2_amended (st : RichTextState)
    (h0 : st.selection.start = 0) (h1 : st.selection.«end» = 0) :
    backspace st = some (pushHistory st,
      [RichTextEvent.Change st.content, RichTextEvent.Backspace])
    ∧ (pushHistory st).content = st.content
    ∧ (pushHistory st).spans = st.spans
    ∧ (pushHistory st).selection = st.selection := by
  have hn : st.selection.normalized = (0, 0) := by
    simp [Selection.normalized, h0, h1]
  refine ⟨?_, pushHistory_content st, pushHistory_spans st, pushHistory_selection st⟩
  simp only [backspace, hn]
  simp [pushHistory_content]

theorem C2_witness :
    initState.selection.start = 0 ∧ initState.selection.«end» = 0 ∧
    backspace initState = some (pushHistory initState,
      [RichTextEvent.Change initState.content, RichTextEvent.Backspace]) :=
  ⟨rfl, rfl, (C2_amended initState rfl rfl).1⟩

/-! Claim C3. -/

/-- Claim C3: delete_range removes the byte range `[a, b)` from the
content and adjusts every span by exactly the six-case rule; in particular
on content "hello" with span (0,5,Bold), delete_range(2,5) yields content
"he" and span (0,2,Bold). -/
theorem C3_deleteRange (st : RichTextState) (a b : Nat) (pre post : List Char)
    (hab : a ≤ b)
    (hpre : takeBytes? st.content a = some pre)
    (hpost : dropBytes? st.content b = some post) :
    deleteRange st a b =
      some { st with content := pre ++ post,
                     spans := st.spans.filterMap (adjustSpanDelete a b) }
    ∧ (∀ sp : TextSpan, sp.start < sp.«end» →
        (sp.«end» ≤ a → adjustSpanDelete a b sp = some sp)
        ∧ (b ≤ sp.start →
            adjustSpanDelete a b sp =
              some ⟨sp.start - (b - a), sp.«end» - (b - a), sp.style⟩)
        ∧ (a ≤ sp.start → sp.«end» ≤ b → adjustSpanDelete a b sp = none)
        ∧ (sp.start < a → b < sp.«end» →
            adjustSpanDelete a b sp = some ⟨sp.start, sp.«end» - (b - a), sp.style⟩)
        ∧ (sp.start < a → a < sp.«end» → sp.«end» ≤ b →
            adjustSpanDelete a b sp = some ⟨sp.start, a, sp.style⟩)
        ∧ (a ≤ sp.start → sp.start < b → b < sp.«end» →
            adjustSpanDelete a b sp = some ⟨a, sp.«end» - (b - a), sp.style⟩))
    ∧ deleteRange helloSpanState 2 5 =
        some { helloSpanState with content := "he".data,
                                   spans := [⟨0, 2, RichTextStyle.bold⟩] } := by
  refine ⟨?_, ?_, by decide⟩
  · simp only [deleteRange, splice?, if_pos hab, concat3?, hpre, hpost, Option.bind_eq_bind,
      Option.some_bind, Option.map_some']
    simp
  · intro sp hsp
    refine ⟨?_, ?_, ?_, ?_, ?_, ?_⟩ <;>
      · intros
        simp only [adjustSpanDelete]
        split_ifs <;> first | rfl | omega

theorem C3_witness :
    (2 : Nat) ≤ 5 ∧
    takeBytes? helloSpanState.content 2 = some ("he".data) ∧
    dropBytes? helloSpanState.content 5 = some [] ∧
    deleteRange helloSpanState 2 5 =
      some { helloSpanState with
              content := "he".data ++ [],
              spans := helloSpanState.spans.filterMap (adjustSpanDelete 2 5) } :=
  ⟨by decide, by decide, by decide,
   (C3_deleteRange helloSpanState 2 5 ("he".data) [] (by decide) (by decide)
     (by decide)).1⟩

/-! Claim C6. -/

/-- Claim C6 (amended): when the engine state agrees with the history
entry at the cursor (as holds immediately after any history-pushing
operation) and the cursor is not at the oldest entry, undo followed by
redo restores exactly the pre-undo state.  In general only content and
spans are restored: the selection comes from the history entry, which can
differ from the live pre-undo selection after a selection-only change. -/
theorem C6_amended (st : RichTextState) (c : List Char) (sp : List TextSpan)
    (sel : Selection)
    (hidx : 0 < st.history_index)
    (hmatch : st.history.get? st.history_index =
      some (st.content, st.spans, st.selection))
    (hprev : st.history.get? (st.history_index - 1) = some (c, sp, sel)) :
    (undo st).bind (fun p => redo p.1) =
      some (st, [RichTextEvent.Change st.content]) := by
  have hlen : st.history_index < st.history.length := by
    by_contra hle
    rw [List.get?_eq_none.mpr (by omega)] at hmatch
    exact absurd hmatch (by simp)
  simp only [undo, if_pos hidx, hprev, Option.bind_eq_bind, Option.some_bind]
  simp only [redo]
  have hcond : st.history_index - 1 < st.history.length - 1 := by omega
  rw [if_pos hcond]
  have hidx1 : st.history_index - 1 + 1 = st.history_index := by omega
  rw [hidx1, hmatch]

/-- Claim C6 counterexample: insert "ab" (history pushed, caret 2), then
set the selection to (0,1) without an edit; undo followed by redo restores
content and spans but yields selection (2,2), not the pre-undo (0,1). -/
def c6pre : Option RichTextState :=
  (insertText initState ("ab".data)).map fun p => setSelection p.1 ⟨0, 1⟩

theorem C6_counterexample :
    (c6pre.map fun st => st.selection) = some ⟨0, 1⟩
    ∧ ((c6pre.bind fun st => (undo st).bind fun p => (redo p.1).map Prod.fst).map
        fun st => (st.content, st.spans, st.selection)) =
      some ("ab".data, [], ⟨2, 2⟩)
    ∧ ((⟨2, 2⟩ : Selection) ≠ ⟨0, 1⟩) :=
  ⟨by decide, by decide, by decide⟩

theorem C6_witness :
    0 < stAB.history_index ∧
    (undo stAB).bind (fun p => redo p.1) =
      some (stAB, [RichTextEvent.Change stAB.content]) :=
  ⟨by decide,
   C6_amended stAB [] [] ⟨0, 0⟩ (by decide) (by decide) (by decide)⟩

/-! Claim C5. -/

/-- splice? succeeds and splices when both slice offsets are valid. -/
theorem splice?_of_take_drop {s : List Char} {a b : Nat} {pre post t : List Char}
    (hab : a ≤ b)
    (hpre : takeBytes? s a = some pre) (hpost : dropBytes? s b = some post) :
    splice? s a b t = some (pre ++ t ++ post) := by
  simp [splice?, if_pos hab, concat3?, hpre, hpost]

/-- deleteRange under valid offsets: content loses `[a, b)` and spans are
filtered through the per-span adjustment. -/
theorem deleteRange_eq {st : RichTextState} {a b : Nat} {pre post : List Char}
    (hab : a ≤ b)
    (hpre : takeBytes? st.content a = some pre)
    (hpost : dropBytes? st.content b = some post) :
    deleteRange st a b =
      some { st with content := pre ++ post,
                     spans := st.spans.filterMap (adjustSpanDelete a b) } := by
  simp only [deleteRange, splice?_of_take_drop hab hpre hpost, Option.map_some']
  simp

/-- Deleting an empty range leaves every span unchanged. -/
theorem adjustSpanDelete_self (a : Nat) (sp : TextSpan) :
    adjustSpanDelete a a sp = some sp := by
  simp only [adjustSpanDelete]
  split_ifs <;> first | rfl | omega | (simp only [Nat.sub_self, Nat.sub_zero])

theorem filterMap_adjustSpanDelete_self (a : Nat) (l : List TextSpan) :
    l.filterMap (adjustSpanDelete a a) = l := by
  induction l with
  | nil => rfl
  | cons x xs ih => simp [List.filterMap_cons, adjustSpanDelete_self, ih]

/-- Claim C5: insert_text deletes a non-empty selection, inserts at the
resulting caret, right-shifts spans starting at or after the insertion
point and right-extends spans strictly containing it, moves the caret to
insertion point + byte length, pushes one history snapshot at the tip and
emits Change; in particular on "ab" with caret 2, inserting "c" yields
"abc", caret 3, and a history one entry longer. -/
theorem C5_insertText (st : RichTextState) (t : List Char) (a b : Nat)
    (pre post : List Char)
    (hn : st.selection.normalized = (a, b))
    (hpre : takeBytes? st.content a = some pre)
    (hpost : dropBytes? st.content b = some post) :
    insertText st t =
      some (pushHistory
        { st with content := pre ++ t ++ post,
                  spans := (st.spans.filterMap (adjustSpanDelete a b)).map
                    (adjustSpanInsert a (utf8Len t)),
                  selection := Selection.cursor (a + utf8Len t) },
        [RichTextEvent.Change (pre ++ t ++ post)])
    ∧ (∃ base, (pushHistory
        { st with content := pre ++ t ++ post,
                  spans := (st.spans.filterMap (adjustSpanDelete a b)).map
                    (adjustSpanInsert a (utf8Len t)),
                  selection := Selection.cursor (a + utf8Len t) }).history =
        base ++ [(pre ++ t ++ post,
          (st.spans.filterMap (adjustSpanDelete a b)).map
            (adjustSpanInsert a (utf8Len t)),
          Selection.cursor (a + utf8Len t))])
    ∧ (∀ sp : TextSpan,
        (a ≤ sp.start →
          adjustSpanInsert a (utf8Len t) sp =
            ⟨sp.start + utf8Len t, sp.«end» + utf8Len t, sp.style⟩)
        ∧ (sp.start < a → a < sp.«end» →
          adjustSpanInsert a (utf8Len t) sp =
            ⟨sp.start, sp.«end» + utf8Len t, sp.style⟩)
        ∧ (sp.start < a → sp.«end» ≤ a → adjustSpanInsert a (utf8Len t) sp = sp))
    ∧ ((insertText initState ("ab".data)).map fun p => p.1.history.length) = some 2
    ∧ ((insertText stAB ("c".data)).map fun p =>
        (p.1.content, p.1.selection, p.1.history.length, p.2)) =
      some ("abc".data, ⟨3, 3⟩, 3, [RichTextEvent.Change ("abc".data)]) := by
  have hab : a ≤ b := by
    have hle := Selection.normalized_le st.selection
    rw [hn] at hle
    exact hle
  refine ⟨?_, pushHistory_appends _, ?_, by decide, by decide⟩
  · have hlenpre : utf8Len pre = a := (takeBytes?_eq_some hpre).1
    by_cases heq : a = b
    · subst heq
      have hs : splice? st.content a a t = some (pre ++ t ++ post) :=
        splice?_of_take_drop (le_refl a) hpre hpost
      simp only [insertText, hn, Option.bind_eq_bind]
      rw [if_neg (fun h => h rfl)]
      simp only [Option.some_bind, hs]
      rw [filterMap_adjustSpanDelete_self]
      simp [pushHistory_content]
    · have hdel : deleteRange st a b =
          some { st with content := pre ++ post,
                         spans := st.spans.filterMap (adjustSpanDelete a b) } :=
        deleteRange_eq hab hpre hpost
      have htake2 : takeBytes? (pre ++ post) a = some pre := by
        rw [← hlenpre]
        exact takeBytes?_append pre post
      have hdrop2 : dropBytes? (pre ++ post) a = some post := by
        rw [← hlenpre]
        exact dropBytes?_append pre post
      have hs : splice? (pre ++ post) a a t = some (pre ++ t ++ post) :=
        splice?_of_take_drop (le_refl a) htake2 hdrop2
      simp only [insertText, hn, Option.bind_eq_bind]
      rw [if_pos heq, hdel]
      simp only [Option.some_bind, hs]
      simp [pushHistory_content]
  · intro sp
    refine ⟨?_, ?_, ?_⟩ <;>
      · intros
        simp only [adjustSpanInsert]
        split_ifs <;> first | rfl | omega

theorem C5_witness :
    stAB.selection.normalized = (2, 2) ∧
    takeBytes? stAB.content 2 = some ("ab".data) ∧
    dropBytes? stAB.content 2 = some [] ∧
    insertText stAB ("c".data) =
      some (pushHistory
        { stAB with content := "ab".data ++ "c".data ++ [],
                    spans := (stAB.spans.filterMap (adjustSpanDelete 2 2)).map
                      (adjustSpanInsert 2 (utf8Len ("c".data))),
                    selection := Selection.cursor (2 + utf8Len ("c".data)) },
        [RichTextEvent.Change ("ab".data ++ "c".data ++ [])]) :=
  ⟨by decide, by decide, by decide,
   (C5_insertText stAB ("c".data) 2 2 ("ab".data) [] (by decide) (by decide)
     (by decide)).1⟩

/-! Claim C4. -/

/-- Coverage on a cons cell. -/
theorem coveredBy_cons {style : RichTextStyle} {p : Nat} {sp : TextSpan}
    {l : List TextSpan} :
    coveredBy style p (sp :: l) ↔
      (sp.style = style ∧ sp.start ≤ p ∧ p < sp.«end») ∨ coveredBy style p l := by
  simp [coveredBy]

/-- remove_style removes coverage of the removed style exactly on `[a, b)`
and preserves it elsewhere. -/
theorem coveredBy_removeStyle (spans : List TextSpan) (a b : Nat)
    (style : RichTextStyle) (p : Nat) :
    coveredBy style p (removeStyle spans a b style) ↔
      (coveredBy style p spans ∧ ¬(a ≤ p ∧ p < b)) := by
  induction spans with
  | nil => simp [removeStyle, coveredBy]
  | cons sp rest ih =>
    simp only [removeStyle]
    split_ifs with h1 h2 h3 h4 h5
    · -- different style: the span passes through untouched
      simp only [coveredBy_cons, ih]
      constructor
      · rintro (⟨hst, hs, he⟩ | ⟨hc, hr⟩)
        · exact absurd hst h1
        · exact ⟨Or.inr hc, hr⟩
      · rintro ⟨⟨hst, hs, he⟩ | hc, hr⟩
        · exact absurd hst h1
        · exact Or.inr ⟨hc, hr⟩
    · -- same style, no overlap with the removal range
      simp only [coveredBy_cons, ih]
      constructor
      · rintro (⟨hst, hs, he⟩ | ⟨hc, hr⟩)
        · exact ⟨Or.inl ⟨hst, hs, he⟩, by omega⟩
        · exact ⟨Or.inr hc, hr⟩
      · rintro ⟨⟨hst, hs, he⟩ | hc, hr⟩
        · exact Or.inl ⟨hst, hs, he⟩
        · exact Or.inr ⟨hc, hr⟩
    · -- same style, fully inside the removal range: dropped
      simp only [ih, coveredBy_cons]
      constructor
      · rintro ⟨hc, hr⟩
        exact ⟨Or.inr hc, hr⟩
      · rintro ⟨⟨hst, hs, he⟩ | hc, hr⟩
        · exact absurd hr (by omega)
        · exact ⟨hc, hr⟩
    · -- removal strictly inside the span: split into two pieces
      have hst : sp.style = style := not_not.mp h1
      simp only [coveredBy_cons, ih]
      constructor
      · rintro (⟨-, hs, he⟩ | ⟨-, hs, he⟩ | ⟨hc, hr⟩)
        · exact ⟨Or.inl ⟨hst, by omega, by omega⟩, by omega⟩
        · exact ⟨Or.inl ⟨hst, by omega, by omega⟩, by omega⟩
        · exact ⟨Or.inr hc, hr⟩
      · rintro ⟨⟨-, hs, he⟩ | hc, hr⟩
        · by_cases hp : p < a
          · exact Or.inl ⟨by trivial, hs, hp⟩
          · exact Or.inr (Or.inl ⟨by trivial, by omega, he⟩)
        · exact Or.inr (Or.inr ⟨hc, hr⟩)
    · -- span overlaps the start of the removal range: clipped at a
      have hst : sp.style = style := not_not.mp h1
      simp only [coveredBy_cons, ih]
      constructor
      · rintro (⟨-, hs, he⟩ | ⟨hc, hr⟩)
        · exact ⟨Or.inl ⟨hst, by omega, by omega⟩, by omega⟩
        · exact ⟨Or.inr hc, hr⟩
      · rintro ⟨⟨-, hs, he⟩ | hc, hr⟩
        · exact Or.inl ⟨by trivial, hs, by omega⟩
        · exact Or.inr ⟨hc, hr⟩
    · -- span overlaps the end of the removal range: clipped at b
      have hst : sp.style = style := not_not.mp h1
      simp only [coveredBy_cons, ih]
      constructor
      · rintro (⟨-, hs, he⟩ | ⟨hc, hr⟩)
        · exact ⟨Or.inl ⟨hst, by omega, by omega⟩, by omega⟩
        · exact ⟨Or.inr hc, hr⟩
      · rintro ⟨⟨-, hs, he⟩ | hc, hr⟩
        · exact Or.inl ⟨by trivial, by omega, he⟩
        · exact Or.inr ⟨hc, hr⟩

/-- The C4 scenario state: content "hello world" with selection [0, 5). -/
def c4s : RichTextState :=
  setSelection (setContent initState ("hello world".data)) ⟨0, 5⟩

/-- The C4 scenario state after one bold toggle. -/
def c4sb : RichTextState := applyStyle c4s RichTextStyle.bold

/-- Claim C4 (amended): apply_style removes the style only when a single
existing span of that style contains the whole normalized selection (in
which case coverage of that style is removed exactly on that range);
coverage of the range by several spans together does not trigger removal —
a new span is added and merged instead.  The scenario holds: on
"hello world" with selection [0,5), toggling Bold gives [(0,5,Bold)] and
toggling again gives []. -/
theorem C4_amended (st : RichTextState) (style : RichTextStyle) (a b : Nat)
    (hn : st.selection.normalized = (a, b)) :
    (a = b → applyStyle st style = st)
    ∧ (a ≠ b → (∃ sp ∈ st.spans, sp.style = style ∧ sp.containsRange a b) →
        (∀ p, coveredBy style p (applyStyle st style).spans ↔
          (coveredBy style p st.spans ∧ ¬(a ≤ p ∧ p < b))))
    ∧ (a ≠ b → (¬∃ sp ∈ st.spans, sp.style = style ∧ sp.containsRange a b) →
        (applyStyle st style).spans = mergeSpans (st.spans ++ [⟨a, b, style⟩]))
    ∧ (applyStyle c4s RichTextStyle.bold).spans = [⟨0, 5, RichTextStyle.bold⟩]
    ∧ (applyStyle c4sb RichTextStyle.bold).spans = [] := by
  have hany : (st.spans.any fun s => s.style == style && decide (s.containsRange a b)) = true ↔
      ∃ sp ∈ st.spans, sp.style = style ∧ sp.containsRange a b := by
    simp [List.any_eq_true, Bool.and_eq_true, beq_iff_eq, decide_eq_true_eq]
  refine ⟨?_, ?_, ?_, by decide, by decide⟩
  · intro heq
    simp only [applyStyle, hn, if_pos heq]
  · intro hne hex p
    have hhas : (st.spans.any fun s => s.style == style && decide (s.containsRange a b)) = true :=
      hany.mpr hex
    simp only [applyStyle, hn]
    rw [if_neg hne]
    simp only [hhas, if_true, pushHistory_spans]
    exact coveredBy_removeStyle st.spans a b style p
  · intro hne hnex
    have hhas : (st.spans.any fun s => s.style == style && decide (s.containsRange a b)) = false := by
      rw [← Bool.not_eq_true]
      intro hc
      exact hnex (hany.mp hc)
    simp only [applyStyle, hn]
    rw [if_neg hne]
    simp only [hhas, if_false, Bool.false_eq_true, pushHistory_spans]

/-- Claim C4 counterexample trace: set content "abcdefgh", bold [0,3),
bold [5,8), then backspace over selection [3,5); the spans become
(0,3,Bold) and (3,6,Bold), which together cover all of [0,6). -/
def c4t1 : RichTextState :=
  applyStyle (setSelection (setContent initState ("abcdefgh".data)) ⟨0, 3⟩)
    RichTextStyle.bold

def c4t2 : RichTextState :=
  applyStyle (setSelection c4t1 ⟨5, 8⟩) RichTextStyle.bold

def c4pre : Option RichTextState :=
  (backspace (setSelection c4t2 ⟨3, 5⟩)).map fun p => setSelection p.1 ⟨0, 6⟩

/-- Claim C4 counterexample: in the reachable state above every point of
the normalized selection [0,6) is covered by a Bold span, yet apply_style
adds and merges (yielding [(0,6,Bold)]) instead of removing the style:
position 0 is still Bold-covered afterwards. -/
theorem C4_counterexample :
    (c4pre.map fun (st : RichTextState) =>
      ((List.range 6).all fun p => decide (coveredBy RichTextStyle.bold p st.spans),
       (applyStyle st RichTextStyle.bold).spans,
       decide (coveredBy RichTextStyle.bold 0
         (applyStyle st RichTextStyle.bold).spans))) =
      some (true, [⟨0, 6, RichTextStyle.bold⟩], true) := by
  decide

theorem C4_witness :
    c4sb.selection.normalized = (0, 5) ∧
    (coveredBy RichTextStyle.bold 2 (applyStyle c4sb RichTextStyle.bold).spans ↔
      (coveredBy RichTextStyle.bold 2 c4sb.spans ∧ ¬(0 ≤ 2 ∧ 2 < 5))) :=
  ⟨by decide,
   (C4_amended c4sb RichTextStyle.bold 0 5 (by decide)).2.1 (by decide) (by decide) 2⟩

/-! Claim C7. -/

/-- Source `TextSpan::overlaps(start, end)`. -/
def TextSpan.overlapsRange (sp : TextSpan) (a b : Nat) : Prop :=
  sp.start < b ∧ sp.«end» > a

instance (sp : TextSpan) (a b : Nat) : Decidable (sp.overlapsRange a b) := by
  unfold TextSpan.overlapsRange; infer_instance

/-- Each span surviving a deletion is still nonempty. -/
theorem adjustSpanDelete_valid {a b : Nat} {sp sp' : TextSpan} (hab : a ≤ b)
    (hsp : sp.start < sp.«end») (h : adjustSpanDelete a b sp = some sp') :
    sp'.start < sp'.«end» := by
  simp only [adjustSpanDelete] at h
  split_ifs at h with h1 h2 h3 h4 h5 h6
  · injection h with h
    subst h
    exact hsp
  · injection h with h
    subst h
    show sp.start - (b - a) < sp.«end» - (b - a)
    omega
  · injection h with h
    subst h
    show sp.start < sp.«end» - (b - a)
    omega
  · injection h with h
    subst h
    show sp.start < a
    omega
  · injection h with h
    subst h
    show a < sp.«end» - (b - a)
    omega

/-- Each piece produced by remove_style is still nonempty. -/
theorem removeStyle_valid : ∀ (spans : List TextSpan) (a b : Nat)
    (style : RichTextStyle),
    (∀ sp ∈ spans, sp.start < sp.«end») →
    ∀ sp ∈ removeStyle spans a b style, sp.start < sp.«end» := by
  intro spans a b style
  induction spans with
  | nil =>
    intro _ sp h
    simp [removeStyle] at h
  | cons x rest ih =>
    intro hv sp hsp
    have hx : x.start < x.«end» := hv x (by simp)
    have hr : ∀ sp ∈ rest, sp.start < sp.«end» := fun sp h => hv sp (by simp [h])
    simp only [removeStyle] at hsp
    split_ifs at hsp with h1 h2 h3 h4 h5
    · rcases List.mem_cons.mp hsp with heq | h
      · subst heq
        exact hx
      · exact ih hr sp h
    · rcases List.mem_cons.mp hsp with heq | h
      · subst heq
        exact hx
      · exact ih hr sp h
    · exact ih hr sp hsp
    · rcases List.mem_cons.mp hsp with heq | h
      · subst heq
        show x.start < a
        omega
      · rcases List.mem_cons.mp h with heq | h2
        · subst heq
          show b < x.«end»
          omega
        · exact ih hr sp h2
    · rcases List.mem_cons.mp hsp with heq | h
      · subst heq
        show x.start < a
        omega
      · exact ih hr sp h
    · rcases List.mem_cons.mp hsp with heq | h
      · subst heq
        show b < x.«end»
        omega
      · exact ih hr sp h

/-- Members of a stable insertion. -/
theorem insertSorted_mem {x sp : TextSpan} : ∀ {l : List TextSpan},
    x ∈ insertSorted sp l → x = sp ∨ x ∈ l := by
  intro l
  induction l with
  | nil =>
    intro h
    simp [insertSorted] at h
    exact Or.inl h
  | cons a as ih =>
    intro h
    simp only [insertSorted] at h
    split_ifs at h with hc
    · rcases List.mem_cons.mp h with heq | h2
      · subst heq
        exact Or.inr (by simp)
      · rcases ih h2 with heq | h3
        · exact Or.inl heq
        · exact Or.inr (by simp [h3])
    · rcases List.mem_cons.mp h with heq | h2
      · exact Or.inl heq
      · exact Or.inr h2

theorem foldl_insertSorted_mem : ∀ (l acc : List TextSpan) (x : TextSpan),
    x ∈ List.foldl (fun acc sp => insertSorted sp acc) acc l → x ∈ acc ∨ x ∈ l := by
  intro l
  induction l with
  | nil =>
    intro acc x h
    exact Or.inl h
  | cons sp rest ih =>
    intro acc x h
    rcases ih (insertSorted sp acc) x h with h2 | h2
    · rcases insertSorted_mem h2 with heq | h3
      · subst heq
        exact Or.inr (by simp)
      · exact Or.inl h3
    · exact Or.inr (by simp [h2])

/-- Members of the stable sort are members of the input. -/
theorem sortSpans_mem {x : TextSpan} {l : List TextSpan} (h : x ∈ sortSpans l) :
    x ∈ l := by
  rcases foldl_insertSorted_mem l [] x h with h2 | h2
  · simp at h2
  · exact h2

/-- The merge loop keeps every span nonempty. -/
theorem mergeAux_valid : ∀ (rest acc : List TextSpan),
    (∀ sp ∈ acc, sp.start < sp.«end») →
    (∀ sp ∈ rest, sp.start < sp.«end») →
    ∀ sp ∈ mergeAux acc rest, sp.start < sp.«end» := by
  intro rest
  induction rest with
  | nil =>
    intro acc hacc _ sp hsp
    simp only [mergeAux] at hsp
    exact hacc sp (List.mem_reverse.mp hsp)
  | cons x rest ih =>
    intro acc hacc hrest sp hsp
    cases acc with
    | nil =>
      refine ih [x] ?_ ?_ sp hsp
      · intro sp2 h2
        have heq := List.mem_singleton.mp h2
        cases heq
        exact hrest _ (by simp)
      · intro sp2 h2
        exact hrest sp2 (by simp [h2])
    | cons last accRest =>
      simp only [mergeAux] at hsp
      split_ifs at hsp with hc
      · refine ih _ ?_ ?_ sp hsp
        · intro sp2 h2
          rcases List.mem_cons.mp h2 with heq | h3
          · cases heq
            have hlast : last.start < last.«end» := hacc last (by simp)
            show last.start < max last.«end» x.«end»
            omega
          · exact hacc sp2 (by simp [h3])
        · intro sp2 h2
          exact hrest sp2 (by simp [h2])
      · refine ih _ ?_ ?_ sp hsp
        · intro sp2 h2
          rcases List.mem_cons.mp h2 with heq | h3
          · cases heq
            exact hrest _ (by simp)
          · rcases List.mem_cons.mp h3 with heq | h4
            · cases heq
              exact hacc _ (by simp)
            · exact hacc sp2 (by simp [h4])
        · intro sp2 h2
          exact hrest sp2 (by simp [h2])

theorem mergeSpans_valid (l : List TextSpan)
    (hv : ∀ sp ∈ l, sp.start < sp.«end») :
    ∀ sp ∈ mergeSpans l, sp.start < sp.«end» := by
  refine mergeAux_valid (sortSpans l) [] (by simp) ?_
  intro sp h
  exact hv sp (sortSpans_mem h)

/-- Appending a span that is disjoint from the last span preserves the
consecutive-disjointness invariant. -/
theorem consecOk_append_singleton : ∀ (l : List TextSpan) (x : TextSpan),
    consecOk l →
    (∀ y, l.getLast? = some y → y.style = x.style → y.«end» < x.start) →
    consecOk (l ++ [x]) := by
  intro l
  induction l with
  | nil =>
    intro x _ _
    trivial
  | cons a as ih =>
    intro x hok hlast
    cases as with
    | nil =>
      refine ⟨?_, trivial⟩
      exact hlast a rfl
    | cons b bs =>
      obtain ⟨hpair, hrest⟩ := hok
      exact ⟨hpair, ih x hrest (fun y hy => hlast y (by simpa using hy))⟩

/-- Rewriting the final span's end (keeping start and style) preserves the
consecutive-disjointness invariant. -/
theorem consecOk_update_last : ∀ (l : List TextSpan) (x y : TextSpan),
    y.start = x.start → y.style = x.style →
    consecOk (l ++ [x]) → consecOk (l ++ [y]) := by
  intro l
  induction l with
  | nil =>
    intro x y _ _ _
    trivial
  | cons a as ih =>
    intro x y hs hst hok
    cases as with
    | nil =>
      obtain ⟨hpair, -⟩ := hok
      refine ⟨?_, trivial⟩
      intro he
      rw [hs]
      exact hpair (he.trans hst)
    | cons b bs =>
      obtain ⟨hpair, hrest⟩ := hok
      exact ⟨hpair, ih x y hs hst hrest⟩

/-- The merge loop establishes consecutive disjointness of same-style
spans. -/
theorem consecOk_mergeAux : ∀ (rest acc : List TextSpan),
    consecOk acc.reverse → consecOk (mergeAux acc rest) := by
  intro rest
  induction rest with
  | nil =>
    intro acc h
    simp only [mergeAux]
    exact h
  | cons sp rest ih =>
    intro acc hacc
    cases acc with
    | nil => exact ih [sp] trivial
    | cons last accRest =>
      simp only [mergeAux]
      split_ifs with hc
      · apply ih
        rw [List.reverse_cons]
        rw [List.reverse_cons] at hacc
        exact consecOk_update_last _ last _ rfl rfl hacc
      · apply ih
        rw [List.reverse_cons, List.reverse_cons]
        rw [List.reverse_cons] at hacc
        apply consecOk_append_singleton _ _ hacc
        intro y hy hystyle
        have hylast : y = last := by
          rw [List.getLast?_concat] at hy
          injection hy with hy
          exact hy.symm
        subst hylast
        exact lt_of_not_ge (fun hge => hc ⟨hystyle, hge⟩)

theorem consecOk_mergeSpans (l : List TextSpan) : consecOk (mergeSpans l) :=
  consecOk_mergeAux (sortSpans l) [] trivial

/-- Claim C7 (amended): after delete_range (via backspace or
delete-forward) and after apply_style every stored span still satisfies
start < end, provided every span did before; the merge performed by
apply_style guarantees only that consecutive spans of equal style in the
stored (sorted) order are strictly disjoint — two spans of the same style
may still overlap when a span of a different style sorts between them, as
the counterexample shows; delete_range itself performs no merge. -/
theorem C7_amended (st : RichTextState) (a b : Nat) (st' : RichTextState)
    (style : RichTextStyle)
    (hvalid : ∀ sp ∈ st.spans, sp.start < sp.«end»)
    (hab : a ≤ b) :
    (deleteRange st a b = some st' → ∀ sp ∈ st'.spans, sp.start < sp.«end»)
    ∧ (∀ sp ∈ (applyStyle st style).spans, sp.start < sp.«end»)
    ∧ (∀ l : List TextSpan, consecOk (mergeSpans l))
    ∧ (¬st.selection.isEmpty →
        (st.spans.any fun s => s.style == style &&
          decide (s.containsRange st.selection.normalized.1
            st.selection.normalized.2)) = false →
        (applyStyle st style).spans =
          mergeSpans (st.spans ++
            [⟨st.selection.normalized.1, st.selection.normalized.2, style⟩]) ∧
        consecOk ((applyStyle st style).spans)) := by
  have hle := Selection.normalized_le st.selection
  refine ⟨?_, ?_, fun l => consecOk_mergeSpans l, ?_⟩
  · intro hdr sp hsp
    simp only [deleteRange] at hdr
    rcases Option.map_eq_some'.mp hdr with ⟨content, -, heq⟩
    subst heq
    rcases List.mem_filterMap.mp hsp with ⟨sp0, hmem, hadj⟩
    exact adjustSpanDelete_valid hab (hvalid sp0 hmem) hadj
  · rcases hnv : st.selection.normalized with ⟨na, nb⟩
    rw [hnv] at hle
    have hle2 : na ≤ nb := hle
    simp only [applyStyle, hnv]
    split_ifs with hnab hhas
    · exact hvalid
    · intro sp hsp
      rw [pushHistory_spans] at hsp
      exact removeStyle_valid st.spans na nb style hvalid sp hsp
    · intro sp hsp
      rw [pushHistory_spans] at hsp
      refine mergeSpans_valid _ ?_ sp hsp
      intro sp2 h2
      rcases List.mem_append.mp h2 with h3 | h3
      · exact hvalid sp2 h3
      · have heq := List.mem_singleton.mp h3
        cases heq
        show na < nb
        omega
  · intro hne hfalse
    rcases hnv : st.selection.normalized with ⟨na, nb⟩
    rw [hnv] at hle
    have hle2 : na ≤ nb := hle
    have hnab : na ≠ nb := by
      intro hEq
      apply hne
      simp only [Selection.isEmpty]
      simp only [Selection.normalized] at hnv
      split at hnv
      · injection hnv with hv1 hv2
        omega
      · injection hnv with hv1 hv2
        omega
    rw [hnv] at hfalse
    have hspanseq : (applyStyle st style).spans =
        mergeSpans (st.spans ++ [⟨na, nb, style⟩]) := by
      simp only [applyStyle, hnv]
      rw [if_neg hnab, pushHistory_spans, if_neg (by simp [hfalse])]
    exact ⟨by simp only [hnv]; exact hspanseq,
      hspanseq ▸ consecOk_mergeSpans _⟩

/-- Claim C7 counterexample trace: bold [0,3), code [1,2), then bold
[2,5) on content "hello". -/
def c7a : RichTextState :=
  applyStyle (setSelection (setContent initState ("hello".data)) ⟨0, 3⟩)
    RichTextStyle.bold

def c7b : RichTextState :=
  applyStyle (setSelection c7a ⟨1, 2⟩) RichTextStyle.code

def c7c : RichTextState :=
  applyStyle (setSelection c7b ⟨2, 5⟩) RichTextStyle.bold

/-- Claim C7 counterexample: immediately after apply_style the stored
spans are [(0,3,Bold), (1,2,Code), (2,5,Bold)] — the first and third have
the same style and overlap on [2,3) — and the overlap persists after a
backspace-triggered delete_range. -/
theorem C7_counterexample :
    c7c.spans = [⟨0, 3, RichTextStyle.bold⟩, ⟨1, 2, RichTextStyle.code⟩,
      ⟨2, 5, RichTextStyle.bold⟩]
    ∧ (c7c.spans.get? 0).map TextSpan.style = (c7c.spans.get? 2).map TextSpan.style
    ∧ ((c7c.spans.get? 0).map fun sp => decide (sp.overlapsRange 2 5)) = some true
    ∧ ((backspace (setSelection c7c ⟨5, 5⟩)).map fun p => p.1.spans) =
        some [⟨0, 3, RichTextStyle.bold⟩, ⟨1, 2, RichTextStyle.code⟩,
          ⟨2, 4, RichTextStyle.bold⟩] := by
  refine ⟨by decide, by decide, by decide, by decide⟩

theorem C7_witness :
    ((0 : Nat) ≤ 1) ∧
    consecOk (mergeSpans [⟨0, 3, RichTextStyle.bold⟩, ⟨1, 2, RichTextStyle.code⟩,
      ⟨2, 5, RichTextStyle.bold⟩]) :=
  ⟨by decide,
   (C7_amended helloSpanState 0 1 helloSpanState RichTextStyle.bold
     (by decide) (by decide)).2.2.1
     [⟨0, 3, RichTextStyle.bold⟩, ⟨1, 2, RichTextStyle.code⟩,
      ⟨2, 5, RichTextStyle.bold⟩]⟩

/-! Claim C8. -/

/-- The C8 state: content "abc" selected in full, anchor 0 and head 3. -/
def c8st : RichTextState :=
  setSelection (setContent initState ("abc".data)) ⟨0, 3⟩

/-- Claim C8 (amended): a non-extending Left (Right) with a non-empty
selection steps one character from the head, collapsing the selection to a
caret one character left (right) of the head; only when the head is
already at offset 0 (at the end) does the move collapse to the normalized
minimum (maximum); Start and End always jump. -/
theorem C8_amended (st : RichTextState) (p q : Nat)
    (hne : ¬st.selection.isEmpty) :
    (st.selection.head = 0 →
      moveLeft st false =
        some { st with selection := Selection.cursor st.selection.normalized.1 })
    ∧ (0 < st.selection.head →
        prevCharStart? st.content st.selection.head = some p →
        moveLeft st false = some { st with selection := Selection.cursor p })
    ∧ (utf8Len st.content ≤ st.selection.head →
        moveRight st false =
          some { st with selection := Selection.cursor st.selection.normalized.2 })
    ∧ (st.selection.head < utf8Len st.content →
        nextCharEnd? st.content st.selection.head = some q →
        moveRight st false = some { st with selection := Selection.cursor q })
    ∧ moveToStart st = { st with selection := Selection.cursor 0 }
    ∧ moveToEnd st = { st with selection := Selection.cursor (utf8Len st.content) } := by
  refine ⟨?_, ?_, ?_, ?_, rfl, rfl⟩
  · intro h0
    simp only [moveLeft, h0]
    rw [if_neg (by omega), if_pos ⟨by simp, hne⟩]
  · intro h0 hp
    simp only [moveLeft]
    rw [if_pos h0, hp]
    simp only [Option.map_some']
    rw [if_neg (by simp)]
  · intro hge
    simp only [moveRight]
    rw [if_neg (by omega), if_pos ⟨by simp, hne⟩]
  · intro hlt hq
    simp only [moveRight]
    rw [if_pos hlt, hq]
    simp only [Option.map_some']
    rw [if_neg (by simp)]

/-- Claim C8 counterexample: with content "abc" fully selected (anchor 0,
head 3), a non-extending Left yields the caret (2,2) — one step left of
the head — not the collapse to the normalized minimum 0 that the claim
requires; symmetrically with anchor 3 and head 0, Right yields (1,1), not
the normalized maximum 3. -/
theorem C8_counterexample :
    ¬c8st.selection.isEmpty
    ∧ c8st.selection.normalized = (0, 3)
    ∧ (moveLeft c8st false).map (fun st => st.selection) = some ⟨2, 2⟩
    ∧ (⟨2, 2⟩ : Selection) ≠ Selection.cursor 0
    ∧ (moveRight (setSelection c8st ⟨3, 0⟩) false).map (fun st => st.selection) =
        some ⟨1, 1⟩
    ∧ (⟨1, 1⟩ : Selection) ≠ Selection.cursor 3 :=
  ⟨by decide, by decide, by decide, by decide, by decide, by decide⟩

theorem C8_witness :
    ¬c8st.selection.isEmpty ∧
    moveLeft c8st false = some { c8st with selection := Selection.cursor 2 } :=
  ⟨by decide, (C8_amended c8st 2 0 (by decide)).2.1 (by decide) (by decide)⟩

/-! Claim C9. -/

/-- Claim C9: replace_and_mark resolves its target range with priority
given range, then marked range, then selection; replaces it with the new
text; marks [replace start, replace start + len) unless the text is empty
(which clears marking); and takes the selection from the supplied
new-selection range (converted against the new content) offset by the
replacement start, or a caret at the end of the insertion; the IME
scenario with "ｎ" then "ん" holds. -/
theorem C9_replaceAndMark (st : RichTextState) (r16 : Option (Nat × Nat))
    (newText : List Char) (nsel : Option (Nat × Nat)) (a b : Nat)
    (pre post : List Char)
    (hr : resolveRange st r16 = (a, b))
    (hpre : takeBytes? st.content a = some pre)
    (hpost : dropBytes? st.content b = some post) :
    (∀ r, r16 = some r →
      resolveRange st r16 = rangeFromUtf16 st.content r.1 r.2)
    ∧ (r16 = none → ∀ m, st.marked_range = some m → resolveRange st r16 = m)
    ∧ (r16 = none → st.marked_range = none →
        resolveRange st r16 = st.selection.normalized)
    ∧ (nsel = none →
        replaceAndMarkTextInRange st r16 newText nsel =
          some ({ st with
                  content := pre ++ newText ++ post,
                  marked_range := (if newText = [] then none
                    else some (a, a + utf8Len newText)),
                  selection := Selection.cursor (a + utf8Len newText) },
                [RichTextEvent.Change (pre ++ newText ++ post)]))
    ∧ (∀ r, nsel = some r →
        replaceAndMarkTextInRange st r16 newText nsel =
          some ({ st with
                  content := pre ++ newText ++ post,
                  marked_range := (if newText = [] then none
                    else some (a, a + utf8Len newText)),
                  selection :=
                    ⟨(rangeFromUtf16 (pre ++ newText ++ post) r.1 r.2).1 + a,
                     (rangeFromUtf16 (pre ++ newText ++ post) r.1 r.2).2 + a⟩ },
                [RichTextEvent.Change (pre ++ newText ++ post)]))
    ∧ ((replaceAndMarkTextInRange initState none ("ｎ".data) (some (0, 1))).map
        fun p => (p.1.content, p.1.marked_range, p.1.selection)) =
      some ("ｎ".data, some (0, 3), ⟨0, 3⟩)
    ∧ (((replaceAndMarkTextInRange initState none ("ｎ".data) (some (0, 1))).bind
        fun p => replaceTextInRange p.1 none ("ん".data)).map
        fun p => (p.1.content, p.1.marked_range, p.1.selection)) =
      some ("ん".data, none, ⟨3, 3⟩) := by
  have hc : concat3? st.content a b newText = some (pre ++ newText ++ post) := by
    simp [concat3?, hpre, hpost]
  refine ⟨?_, ?_, ?_, ?_, ?_, by decide, by decide⟩
  · intro r hr16
    subst hr16
    rfl
  · intro h16 m hm
    subst h16
    simp [resolveRange, hm]
  · intro h16 hm
    subst h16
    simp [resolveRange, hm]
  · intro hns
    subst hns
    simp only [replaceAndMarkTextInRange, hr, hc, Option.bind_eq_bind,
      Option.some_bind]
    rfl
  · intro r hns
    subst hns
    simp only [replaceAndMarkTextInRange, hr, hc, Option.bind_eq_bind,
      Option.some_bind]

theorem C9_witness :
    resolveRange initState none = (0, 0) ∧
    takeBytes? initState.content 0 = some [] ∧
    dropBytes? initState.content 0 = some [] ∧
    replaceAndMarkTextInRange initState none ("ｎ".data) (some (0, 1)) =
      some ({ initState with
              content := [] ++ "ｎ".data ++ [],
              marked_range := (if ("ｎ".data : List Char) = [] then none
                else some (0, 0 + utf8Len ("ｎ".data))),
              selection :=
                ⟨(rangeFromUtf16 ([] ++ "ｎ".data ++ []) 0 1).1 + 0,
                 (rangeFromUtf16 ([] ++ "ｎ".data ++ []) 0 1).2 + 0⟩ },
            [RichTextEvent.Change ([] ++ "ｎ".data ++ [])]) :=
  ⟨by decide, by decide, by decide,
   (C9_replaceAndMark initState none ("ｎ".data) (some (0, 1)) 0 0 [] []
     (by decide) (by decide) (by decide)).2.2.2.2.1 (0, 1) rfl⟩

/-! Claim C10. -/

/-- The C10 state: content "ab" with a host-supplied out-of-bounds
selection (5,5). -/
def c10st : RichTextState :=
  setSelection (setContent initState ("ab".data)) ⟨5, 5⟩

/-- The C10 state: content "ｎ" (one 3-byte character) with a
host-supplied non-boundary selection (1,1). -/
def c10nb : RichTextState :=
  setSelection (setContent initState ("ｎ".data)) ⟨1, 1⟩

/-- Claim C10 counterexample: the engine does not clamp: with selection
(5,5) on the 2-byte content "ab", or the non-boundary selection (1,1)
inside the 3-byte character "ｎ", insert_text (and backspace) reach a
String slicing or insertion whose offset contract is violated, i.e. they
panic (modelled as none) instead of clamping. -/
theorem C10_counterexample :
    insertText c10st ("c".data) = none
    ∧ insertText c10nb ("c".data) = none
    ∧ backspace c10st = none :=
  ⟨by decide, by decide, by decide⟩

/-- Claim C10 (amended): set_selection stores host-supplied offsets
without any validation, and the mutating operations do not clamp: when the
normalized selection start (or end) is out of bounds or not on a character
boundary, insert_text and backspace panic (modelled as none) at the
underlying String slicing or insertion. -/
theorem C10_amended (st : RichTextState) (sel : Selection) (t : List Char) :
    setSelection st sel = { st with selection := sel }
    ∧ (takeBytes? st.content st.selection.normalized.1 = none →
        insertText st t = none)
    ∧ (dropBytes? st.content st.selection.normalized.2 = none →
        insertText st t = none)
    ∧ (takeBytes? st.content st.selection.normalized.1 = none →
        backspace st = none) := by
  refine ⟨rfl, ?_, ?_, ?_⟩
  · intro h
    rcases hnv : st.selection.normalized with ⟨na, nb⟩
    rw [hnv] at h
    simp only [insertText, hnv, Option.bind_eq_bind]
    split_ifs with hne2
    · have hd : deleteRange st na nb = none := by
        simp only [deleteRange, splice?]
        split_ifs
        · simp [concat3?, h]
        · rfl
      rw [hd]
      rfl
    · have hs : splice? st.content na na t = none := by
        simp [splice?, concat3?, h]
      simp [hs]
  · intro h
    rcases hnv : st.selection.normalized with ⟨na, nb⟩
    rw [hnv] at h
    simp only [insertText, hnv, Option.bind_eq_bind]
    split_ifs with hne2
    · have hd : deleteRange st na nb = none := by
        simp only [deleteRange, splice?]
        split_ifs
        · simp [concat3?, Option.bind_eq_bind, h]
        · rfl
      rw [hd]
      rfl
    · have hb : na = nb := by omega
      have hs : splice? st.content na na t = none := by
        rw [hb]
        simp [splice?, concat3?, Option.bind_eq_bind, h]
      simp [hs]
  · intro h
    rcases hnv : st.selection.normalized with ⟨na, nb⟩
    rw [hnv] at h
    simp only [backspace, hnv, Option.bind_eq_bind]
    split_ifs with hne2 hpos
    · have hd : deleteRange st na nb = none := by
        simp only [deleteRange, splice?]
        split_ifs
        · simp [concat3?, h]
        · rfl
      rw [hd]
      rfl
    · have hp : prevCharStart? st.content na = none := by
        simp [prevCharStart?, h]
      simp [hp]
    · have h0 : na = 0 := by omega
      rw [h0] at h
      simp [takeBytes?, splitBytes?] at h

theorem C10_witness :
    takeBytes? c10st.content c10st.selection.normalized.1 = none ∧
    insertText c10st ("c".data) = none :=
  ⟨by decide, (C10_amended c10st ⟨5, 5⟩ ("c".data)).2.1 (by decide)⟩

/-! Claim C1. -/

/-- The C1 failing trace: insert "ab" (caret at byte 2), then an IME
replace-and-mark at the caret with text "x" and a stale UTF-16
new-selection range 0..3. -/
def c1Trace : Option (RichTextState × List RichTextEvent) :=
  (insertText initState ("ab".data)).bind fun p =>
    replaceAndMarkTextInRange p.1 none ("x".data) (some (0, 3))

/-- Claim C1 (code bug): after the trace the content is "abx" (3 bytes)
but the selection is (2,5) — its end exceeds the content length, because
replace_and_mark_text_in_range adds the replacement start to the converted
new-selection range without re-clamping.  This violates the claimed
invariant that every stored selection offset lies in [0, content length]. -/
theorem C1_out_of_bounds :
    (c1Trace.map fun p => (utf8Len p.1.content, p.1.selection)) =
      some (3, ⟨2, 5⟩)
    ∧ ¬((5 : Nat) ≤ 3) :=
  ⟨by decide, by decide⟩
